import Mathlib

/-!
Shallow embedding of the dependency-discovery core of `tollm.py`:
reference extraction from a parsed compilation unit
(`extract_linked_classes`), cached path resolution (`load_cache`,
`save_cache`, `find_class_paths`), depth-bounded breadth-first traversal
(`find_linked_classes`), and the output assembly (`write_linked_files`,
the file-list construction in `main`).

Modelling conventions:
  - Python strings are Lean `String`; character-level operations
    (`startswith`, `strip`, `split`, `find`) are defined over `.data`.
  - Python sets are insertion-ordered duplicate-free `List String`
    (Python set iteration order is arbitrary; no theorem below depends
    on the order, only on membership).
  - The filesystem is an environment `JEnv`: a file-existence predicate,
    the directory lists produced by the two `rglob` walks (in walk
    order), the parser (a black box in the source as well), and a file
    reader.  The environment is constant during a run, matching the
    single-threaded, no-external-change assumption of the source.
  - The on-disk cache file `.java2llm` is threaded explicitly as
    `Option (List String)` (absent, or its lines without trailing
    newline).
  - `parsedLog`, `queuedLog`, `wrote` and `evictCount` are
    instrumentation fields recording observable events (parser
    invocations, classes queued for expansion, whether `save_cache` ran,
    how often the stale-entry eviction branch ran); they influence no
    other field.
-/

namespace Tollm

/-- Model of the Python test `s.startswith(pre)`. -/
def pyStartswith (s pre : String) : Bool :=
  pre.data.isPrefixOf s.data

/-- Model of the Python set-add on an insertion-ordered list. -/
def pyAdd (acc : List String) (x : String) : List String :=
  if x ∈ acc then acc else acc ++ [x]

/-- Model of `list(set(l))`: duplicates removed (first occurrence kept). -/
def pyDedup (l : List String) : List String :=
  l.foldl pyAdd []

/-- Model of `'.'.join(full_name.split('.')[:-1])`: drop the final dotted
segment; the empty string when the name has no dot. -/
def dropLastSeg (s : String) : String :=
  String.mk (((s.data.reverse.dropWhile (fun c => c ≠ '.')).drop 1).reverse)

/-- Model of Python `s.strip()` (whitespace removed at both ends). -/
def pyStrip (s : String) : String :=
  String.mk (((s.data.dropWhile Char.isWhitespace).reverse.dropWhile
    Char.isWhitespace).reverse)

/-- Model of `s.split('=', 1)` packaged as (before, after) of the first
`=`; when `s` has no `=` it returns `(s, "")` (the callers guard on
containment first, as the source does). -/
def splitEqOnce (s : String) : String × String :=
  (String.mk (s.data.takeWhile (fun c => c ≠ '=')),
   String.mk ((s.data.dropWhile (fun c => c ≠ '=')).drop 1))

/-- Import declaration of a compilation unit: static flag and the dotted
name, as exposed by the parser (`import_decl.isStatic()`,
`import_decl.getName().asString()`). -/
structure ImportDecl where
  isStatic : Bool
  name : String
deriving DecidableEq

/-- Type declaration: the `extends` and `implements` lists as dotted or
bare names (`getExtendedTypes()`, `getImplementedTypes()`). -/
structure TypeDecl where
  extendedTypes : List String
  implementedTypes : List String
deriving DecidableEq

/-- Compilation unit as consumed by `extract_linked_classes`: optional
package declaration, imports, type declarations. -/
structure CU where
  packageName : Option String
  imports : List ImportDecl
  types : List TypeDecl
deriving DecidableEq

/-- Class name recovered from one import declaration (tollm.py lines
119-124): static imports drop the trailing member segment. -/
def importClassName (import_decl : ImportDecl) : String :=
  if import_decl.isStatic then dropLastSeg import_decl.name
  else import_decl.name

/-- Body of the `for import_decl in compilation_unit.getImports()` loop
of `extract_linked_classes` (tollm.py lines 117-127): the recovered name
is kept when it does not start with the standard-library root and starts
with the base package. -/
def importStep (base_package : String) (acc : List String)
    (import_decl : ImportDecl) : List String :=
  if !(pyStartswith (importClassName import_decl) "java.") &&
      pyStartswith (importClassName import_decl) base_package then
    pyAdd acc (importClassName import_decl)
  else acc

/-- Body shared verbatim by the extends loop (tollm.py lines 133-141) and
the implements loop (lines 145-153) of `extract_linked_classes`: a bare
name is qualified with the package of the unit, a dotted name is used
as-is; either is kept only when it starts with the base package. -/
def superStep (base_package package_name : String) (acc3 : List String)
    (class_name : String) : List String :=
  if !(class_name.data.contains '.') then
    if pyStartswith (package_name ++ "." ++ class_name) base_package then
      pyAdd acc3 (package_name ++ "." ++ class_name)
    else acc3
  else if pyStartswith class_name base_package then pyAdd acc3 class_name
  else acc3

/-- Body of the `for type_decl in compilation_unit.getTypes()` loop: the
extends references of the declaration, then its implements references. -/
def typeStep (base_package package_name : String) (acc : List String)
    (type_decl : TypeDecl) : List String :=
  type_decl.implementedTypes.foldl (superStep base_package package_name)
    (type_decl.extendedTypes.foldl (superStep base_package package_name) acc)

/-- Embedding of `extract_linked_classes(compilation_unit, base_package)`
(tollm.py lines 110-155). -/
def extract_linked_classes (compilation_unit : CU) (base_package : String) :
    List String :=
  let package_name := compilation_unit.packageName.getD ""
  compilation_unit.types.foldl (typeStep base_package package_name)
    (compilation_unit.imports.foldl (importStep base_package) [])

/-- In-memory cache: a Python dict as an insertion-ordered association
list with unique keys. -/
abbrev Cache := List (String × String)

/-- Model of Python dict lookup `cache[class_name]` guarded by
`class_name in cache`. -/
def lookupCache : Cache → String → Option String
  | [], _ => none
  | (k, v) :: rest, n => if k = n then some v else lookupCache rest n

/-- Model of Python dict assignment `cache[class_name] = path`: replace
in place when the key exists, append otherwise. -/
def updateCache : Cache → String → String → Cache
  | [], n, p => [(n, p)]
  | (k, v) :: rest, n, p =>
    if k = n then (k, p) :: rest else (k, v) :: updateCache rest n p

/-- Model of Python `del cache[class_name]`. -/
def eraseCache : Cache → String → Cache
  | [], _ => []
  | (k, v) :: rest, n => if k = n then rest else (k, v) :: eraseCache rest n

/-- Environment a run executes in: file existence, the directory lists
the two `rglob` walks return (in walk order), the black-box parser, and
the file reader. -/
structure JEnv where
  fexists : String → Bool
  srcMainJavaDirs : List String
  srcDirs : List String
  parse : String → Option CU
  readFile : String → Option String

/-- Treatment of one cache-file line by `load_cache`: lines without `=`
are skipped; a line with `=` is stripped, split at the first `=`, and
the entry is kept only when its path exists on disk. -/
def loadLineStep (env : JEnv) (cache : Cache) (line : String) : Cache :=
  if line.data.contains '=' then
    if env.fexists (splitEqOnce (pyStrip line)).2 then
      updateCache cache (splitEqOnce (pyStrip line)).1
        (splitEqOnce (pyStrip line)).2
    else cache
  else cache

/-- Embedding of `load_cache(root_dir)` (tollm.py lines 157-171) over an
explicit cache-file content: loadLineStep folded over its lines. -/
def load_cache (env : JEnv) (cacheFile : Option (List String)) : Cache :=
  match cacheFile with
  | none => []
  | some lines => lines.foldl (loadLineStep env) []

/-- Ordering used by `sorted(cache.items())`: lexicographic on the
(name, path) pair. -/
def pairLe (a b : String × String) : Prop :=
  a.1 < b.1 ∨ (a.1 = b.1 ∧ a.2 ≤ b.2)

instance : DecidableRel pairLe := fun a b =>
  inferInstanceAs (Decidable (a.1 < b.1 ∨ (a.1 = b.1 ∧ a.2 ≤ b.2)))

/-- Embedding of `save_cache(cache, root_dir)` (tollm.py lines 173-181):
the lines written, one sorted `name=path` line per mapping. -/
def save_cache (cache : Cache) : List String :=
  (List.insertionSort pairLe cache).map (fun e => e.1 ++ "=" ++ e.2)

/-- Relative path computed from a class name:
`class_name.replace('.', '/') + '.java'`. -/
def classRelPath (class_name : String) : String :=
  String.mk (class_name.data.map (fun c => if c = '.' then '/' else c))
    ++ ".java"

/-- The candidate source roots, in the precedence order the source
builds `java_dirs`: the `src/main/java` walk, then the `src` walk, then
the project root itself. -/
def searchDirs (env : JEnv) (root_dir : String) : List String :=
  env.srcMainJavaDirs ++ env.srcDirs ++ [root_dir]

/-- Filesystem search of `find_class_paths`: the first candidate
directory under which the computed relative path exists. -/
def searchClass (env : JEnv) (root_dir class_name : String) : Option String :=
  ((searchDirs env root_dir).find?
    (fun base_dir => env.fexists (base_dir ++ "/" ++ classRelPath class_name))).map
    (fun base_dir => base_dir ++ "/" ++ classRelPath class_name)

/-- Intermediate state of one `find_class_paths` batch. -/
structure FCPState where
  paths : List String
  cache : Cache
  updated : Bool
  evict : Nat
deriving DecidableEq

/-- Search arm of the per-name loop of `find_class_paths`: on a hit the
path is appended, the mapping recorded and the cache marked dirty; on a
miss the name is silently dropped. -/
def fcpSearch (env : JEnv) (root_dir : String) (st : FCPState)
    (class_name : String) : FCPState :=
  match searchClass env root_dir class_name with
  | some path_str =>
    { st with paths := st.paths ++ [path_str],
              cache := updateCache st.cache class_name path_str,
              updated := true }
  | none => st

/-- One iteration of the `for class_name in class_names` loop of
`find_class_paths` (tollm.py lines 190-231): cache hit with live path is
accepted immediately; cache hit with dead path is evicted (dirty) and
falls through to search; cache miss searches. -/
def fcpStep (env : JEnv) (root_dir : String) (st : FCPState)
    (class_name : String) : FCPState :=
  match lookupCache st.cache class_name with
  | some cached_path =>
    if env.fexists cached_path then
      { st with paths := st.paths ++ [cached_path] }
    else
      fcpSearch env root_dir
        { st with cache := eraseCache st.cache class_name,
                  updated := true, evict := st.evict + 1 } class_name
  | none => fcpSearch env root_dir st class_name

/-- Result of a `find_class_paths` batch: the resolved paths, the cache
file afterwards, whether `save_cache` ran (`wrote`), and how many times
the stale-entry eviction branch ran (`evictCount`). -/
structure FCPResult where
  paths : List String
  cacheFile : Option (List String)
  wrote : Bool
  evictCount : Nat
deriving DecidableEq

/-- Batch end of `find_class_paths`: `save_cache` runs exactly when a
mutation occurred, otherwise the cache file is untouched. -/
def finishBatch (cacheFile : Option (List String)) (st : FCPState) :
    FCPResult :=
  { paths := st.paths,
    cacheFile := if st.updated then some (save_cache st.cache) else cacheFile,
    wrote := st.updated,
    evictCount := st.evict }

/-- Embedding of `find_class_paths(class_names, root_dir)` (tollm.py
lines 183-236): load the cache, resolve every name, persist once at
batch end when dirty. -/
def find_class_paths (env : JEnv) (class_names : List String)
    (root_dir : String) (cacheFile : Option (List String)) : FCPResult :=
  finishBatch cacheFile
    (class_names.foldl (fcpStep env root_dir)
      ⟨[], load_cache env cacheFile, false, 0⟩)

/-- State of one `find_linked_classes` traversal (tollm.py lines 55-108),
with the cache-file content threaded (the batches it spawns read and
write it) and two instrumentation logs: every file passed to
`parse_java_file` in call order (`parsedLog`) and every class appended
to the visited-class set in order (`queuedLog`). -/
structure TravState where
  visitedFiles : List String
  visitedClasses : List String
  frontier : List String
  nextLevel : List String
  cacheFile : Option (List String)
  parsedLog : List String
  queuedLog : List String
deriving DecidableEq

/-- New classes of one processed unit:
`linked_classes - visited_classes`. -/
def newClasses (base_package : String) (visited : List String) (cu : CU) :
    List String :=
  (extract_linked_classes cu base_package).filter
    (fun c => !decide (c ∈ visited))

/-- State change when a file is handed to the parser: record it in the
visited-file set and in the parse log. -/
def markParsed (s : TravState) (file : String) : TravState :=
  { s with visitedFiles := s.visitedFiles ++ [file],
           parsedLog := s.parsedLog ++ [file] }

/-- State change after a successful parse: the new classes join the
visited-class set (and the queue log); when there are any, they are
resolved and the found paths extend the next level. -/
def processParsed (env : JEnv) (root_dir base_package : String)
    (s1 : TravState) (cu : CU) : TravState :=
  if (newClasses base_package s1.visitedClasses cu).isEmpty then
    { s1 with
      visitedClasses :=
        s1.visitedClasses ++ newClasses base_package s1.visitedClasses cu,
      queuedLog :=
        s1.queuedLog ++ newClasses base_package s1.visitedClasses cu }
  else
    { s1 with
      visitedClasses :=
        s1.visitedClasses ++ newClasses base_package s1.visitedClasses cu,
      queuedLog :=
        s1.queuedLog ++ newClasses base_package s1.visitedClasses cu,
      nextLevel := s1.nextLevel ++ (find_class_paths env
        (newClasses base_package s1.visitedClasses cu) root_dir
        s1.cacheFile).paths,
      cacheFile := (find_class_paths env
        (newClasses base_package s1.visitedClasses cu) root_dir
        s1.cacheFile).cacheFile }

/-- Body of the `for file in files_to_inspect` loop: skip visited files,
otherwise mark visited, parse, extract, keep the not-yet-visited classes
and resolve them into next-level files. -/
def processFile (env : JEnv) (root_dir base_package : String)
    (s : TravState) (file : String) : TravState :=
  if file ∈ s.visitedFiles then s
  else
    match env.parse file with
    | none => markParsed s file
    | some cu => processParsed env root_dir base_package (markParsed s file) cu

/-- One iteration of `for level in range(depth)`: process the frontier,
then `files_to_inspect = list(set(next_level_files))`. -/
def levelStep (env : JEnv) (root_dir base_package : String)
    (s : TravState) : TravState :=
  let s1 := s.frontier.foldl (processFile env root_dir base_package)
    { s with nextLevel := [] }
  { s1 with frontier := pyDedup s1.nextLevel, nextLevel := [] }

/-- The depth loop with its early break (`if not files_to_inspect:
break`). -/
def runLevels (env : JEnv) (root_dir base_package : String) :
    Nat → TravState → TravState
  | 0, s => s
  | Nat.succ d, s =>
    let s2 := levelStep env root_dir base_package s
    if s2.frontier.isEmpty then s2 else runLevels env root_dir base_package d s2

/-- Initial traversal state: empty visited sets,
`files_to_inspect = [target_file]`, given cache file, empty logs. -/
def initState (target_file : String) (cacheFile : Option (List String)) :
    TravState :=
  ⟨[], [], [target_file], [], cacheFile, [], []⟩

/-- Full final state of `find_linked_classes(target_file, depth,
root_dir, base_package)`. -/
def find_linked_full (env : JEnv) (target_file : String) (depth : Nat)
    (root_dir base_package : String) (cacheFile : Option (List String)) :
    TravState :=
  runLevels env root_dir base_package depth (initState target_file cacheFile)

/-- Embedding of `find_linked_classes` proper: the function returns
`visited_classes`. -/
def find_linked_classes (env : JEnv) (target_file : String) (depth : Nat)
    (root_dir base_package : String) (cacheFile : Option (List String)) :
    List String :=
  (find_linked_full env target_file depth root_dir base_package
    cacheFile).visitedClasses

/-- Scan of `content.find("package ")` followed by the slice
`content[package_index:]`: the suffix starting at the first occurrence
of the pattern, or none when absent. -/
def firstOccFrom (pat : List Char) : List Char → Option (List Char)
  | [] => if pat.isEmpty then some [] else none
  | c :: rest =>
    if pat.isPrefixOf (c :: rest) then some (c :: rest)
    else firstOccFrom pat rest

/-- Content trimming of `write_linked_files`: keep only the content from
the `package ` declaration onwards when one occurs. -/
def stripToPackage (content : String) : String :=
  match firstOccFrom ("package ").data content.data with
  | some suffix => String.mk suffix
  | none => content

/-- The 80-character separator line of the txt format. -/
def eqSep : String := String.mk (List.replicate 80 '=')

/-- One txt-format block of `write_linked_files` (tollm.py lines
333-348): header, separator, trimmed content, separator. -/
def txtBlock (file_path content : String) : String :=
  "// File: " ++ file_path ++ "\n" ++ eqSep ++ "\n"
    ++ stripToPackage content ++ "\n" ++ eqSep ++ "\n\n"

/-- Treatment of one file by the txt writer: append its block to the
output written so far; a file whose read fails is skipped. -/
def writeStepTxt (env : JEnv) (out : String) (file_path : String) : String :=
  match env.readFile file_path with
  | some content => out ++ txtBlock file_path content
  | none => out

/-- Embedding of `write_linked_files(linked_files, output_file, 'txt')`:
the content written to the output file. -/
def write_linked_files (env : JEnv) (linked_files : List String) : String :=
  linked_files.foldl (writeStepTxt env) ""

/-- File-list assembly of `main` (tollm.py lines 375-377):
`linked_files = [target_java_class] + list(set(find_class_paths(...)))`. -/
def mainLinkedFiles (target_java_class : String) (resolved : List String) :
    List String :=
  target_java_class :: pyDedup resolved

/-- Test that a class name is cache-file safe: it contains no `=` and
does not start with whitespace. Qualified class names of the data model
(non-empty dot-separated identifiers) all satisfy it. -/
def cacheSafeName (n : String) : Bool :=
  !(n.data.contains '=') &&
    (match n.data with
     | [] => true
     | c :: _ => !c.isWhitespace)

/-- Liveness of a cache: every stored path exists on disk. -/
def CacheLive (env : JEnv) (c : Cache) : Prop :=
  ∀ e ∈ c, env.fexists e.2 = true

/-- Canonicity of a cache: every entry parses back to itself from its
cache-file line. -/
def CacheCanon (c : Cache) : Prop :=
  ∀ e ∈ c, splitEqOnce (pyStrip (e.1 ++ "=" ++ e.2)) = e

/-- Key uniqueness of a cache, the dict invariant. -/
def CacheKeys (c : Cache) : Prop :=
  (c.map Prod.fst).Nodup

/-! Concrete scenario environments used by the scenario claims and by
witnesses. -/

/-- Path of class com.ex.A under the project root of the scenarios. -/
def fileA : String := "root/src/com/ex/A.java"

/-- Path of class com.ex.B under the project root of the scenarios. -/
def fileB : String := "root/src/com/ex/B.java"

/-- Path of class com.ex.C under the project root of the scenarios. -/
def fileC : String := "root/src/com/ex/C.java"

/-- Unit of class A of the chain scenario: package com.ex, imports
com.ex.B. -/
def cuA : CU := ⟨some "com.ex", [⟨false, "com.ex.B"⟩], []⟩

/-- Unit of class B of the chain scenario: package com.ex, imports
com.ex.C. -/
def cuB : CU := ⟨some "com.ex", [⟨false, "com.ex.C"⟩], []⟩

/-- Unit of class C of the chain scenario: package com.ex, no
references. -/
def cuC : CU := ⟨some "com.ex", [], []⟩

/-- Environment of the chain scenario A imports B, B imports C, with B
and C resolvable under root/src. -/
def envChain : JEnv :=
  { fexists := fun p => p ∈ [fileB, fileC],
    srcMainJavaDirs := [],
    srcDirs := ["root/src"],
    parse := fun f =>
      if f = fileA then some cuA
      else if f = fileB then some cuB
      else if f = fileC then some cuC
      else none,
    readFile := fun _ => none }

/-- Unit of class B of the cycle scenario: package com.ex, imports
com.ex.A. -/
def cuBcycle : CU := ⟨some "com.ex", [⟨false, "com.ex.A"⟩], []⟩

/-- Environment of the cycle scenario: A references B and B references
A, both resolvable under root/src. -/
def envCycle : JEnv :=
  { fexists := fun p => p ∈ [fileA, fileB],
    srcMainJavaDirs := [],
    srcDirs := ["root/src"],
    parse := fun f =>
      if f = fileA then some cuA
      else if f = fileB then some cuBcycle
      else none,
    readFile := fun _ => none }

/-- Environment of the stale-cache scenario: only root/src/com/ex/B.java
exists; the path the cache remembers for com.ex.B is gone. -/
def envStale : JEnv :=
  { fexists := fun p => p ∈ [fileB],
    srcMainJavaDirs := [],
    srcDirs := ["root/src"],
    parse := fun _ => none,
    readFile := fun _ => none }

/-- Unit with one non-static import of a sibling namespace sharing the
textual prefix com.ex. -/
def cuSibling : CU := ⟨some "com.other", [⟨false, "com.example.Foo"⟩], []⟩

/-- Unit whose only reference is an extends of a standard-library type. -/
def cuStdExtends : CU := ⟨some "x", [], [⟨["java.util.List"], []⟩]⟩

/-- Environment of the writer scenario: only T.java is readable. -/
def envWriter : JEnv :=
  { fexists := fun _ => false,
    srcMainJavaDirs := [],
    srcDirs := [],
    parse := fun _ => none,
    readFile := fun f =>
      if f = "T.java" then some "package t; class T {}" else none }

/-- Environment of the cache-load witness: the single cached path
exists. -/
def envLoadW : JEnv :=
  { fexists := fun p => p ∈ ["p.java"],
    srcMainJavaDirs := [],
    srcDirs := [],
    parse := fun _ => none,
    readFile := fun _ => none }

/-! Membership lemmas for the extraction folds. -/

theorem mem_pyAdd {acc : List String} {x y : String} (h : y ∈ pyAdd acc x) :
    y ∈ acc ∨ y = x := by
  unfold pyAdd at h
  split at h
  · exact Or.inl h
  · rcases List.mem_append.mp h with h2 | h2
    · exact Or.inl h2
    · exact Or.inr (List.mem_singleton.mp h2)

theorem foldl_keep {α : Type} (Q : String → Prop)
    (f : List String → α → List String)
    (hf : ∀ acc b y, y ∈ f acc b → y ∈ acc ∨ Q y) :
    ∀ (l : List α) (acc : List String) (y : String),
      y ∈ l.foldl f acc → y ∈ acc ∨ Q y := by
  intro l
  induction l with
  | nil => intro acc y hy; exact Or.inl hy
  | cons b t ih =>
    intro acc y hy
    rcases ih (f acc b) y hy with h2 | h2
    · exact hf acc b y h2
    · exact Or.inr h2

theorem importStep_mem (base_package : String) (acc : List String)
    (b : ImportDecl) (y : String) (h : y ∈ importStep base_package acc b) :
    y ∈ acc ∨ pyStartswith y base_package = true := by
  unfold importStep at h
  split at h
  · rcases mem_pyAdd h with h2 | h2
    · exact Or.inl h2
    · subst h2
      rename_i hguard
      rw [Bool.and_eq_true] at hguard
      exact Or.inr hguard.2
  · exact Or.inl h

theorem superStep_mem (base_package package_name : String)
    (acc3 : List String) (b y : String)
    (h : y ∈ superStep base_package package_name acc3 b) :
    y ∈ acc3 ∨ pyStartswith y base_package = true := by
  unfold superStep at h
  split at h
  · split at h
    · rcases mem_pyAdd h with h2 | h2
      · exact Or.inl h2
      · subst h2
        rename_i hguard
        exact Or.inr hguard
    · exact Or.inl h
  · split at h
    · rcases mem_pyAdd h with h2 | h2
      · exact Or.inl h2
      · subst h2
        rename_i hguard
        exact Or.inr hguard
    · exact Or.inl h

theorem typeStep_mem (base_package package_name : String)
    (acc : List String) (b : TypeDecl) (y : String)
    (h : y ∈ typeStep base_package package_name acc b) :
    y ∈ acc ∨ pyStartswith y base_package = true := by
  unfold typeStep at h
  rcases foldl_keep (fun y => pyStartswith y base_package = true) _
      (superStep_mem base_package package_name) _ _ _ h with h2 | h2
  · exact foldl_keep (fun y => pyStartswith y base_package = true) _
      (superStep_mem base_package package_name) _ _ _ h2
  · exact Or.inr h2

/-- Every name the extraction yields passes the base-prefix test: each
of the three contributing rules guards its additions with it. -/
theorem extract_mem_base (compilation_unit : CU) (base_package s : String)
    (hs : s ∈ extract_linked_classes compilation_unit base_package) :
    pyStartswith s base_package = true := by
  unfold extract_linked_classes at hs
  rcases foldl_keep (fun y => pyStartswith y base_package = true) _
      (typeStep_mem base_package (compilation_unit.packageName.getD ""))
      _ _ _ hs with h2 | h2
  · rcases foldl_keep (fun y => pyStartswith y base_package = true) _
        (importStep_mem base_package) _ _ _ h2 with h3 | h3
    · exact absurd h3 (List.not_mem_nil s)
    · exact h3
  · exact h2

/-- Claim C1, as stated, is false on the code: the reserved-root filter
exists only on the import rule; an extends reference of a
standard-library type passes the extraction whenever the base namespace
overlaps the reserved root, here with base namespace java. itself. -/
theorem c1_extract_std_root_counterexample :
    ¬ (∀ (compilation_unit : CU) (base_package s : String),
        s ∈ extract_linked_classes compilation_unit base_package →
        pyStartswith s "java." = false) := by
  intro h
  have h2 := h cuStdExtends "java." "java.util.List" (by decide)
  exact absurd h2 (by decide)

/-- Claim C1, amended: when the base namespace is prefix-incomparable
with the reserved root java. (it neither is a prefix of java. nor
extends it), the extraction never yields a name under java.; with an
overlapping base namespace, only the import rule still guarantees it. -/
theorem c1_extract_never_std_root_amended (compilation_unit : CU)
    (base_package : String)
    (h1 : pyStartswith "java." base_package = false)
    (h2 : pyStartswith base_package "java." = false) :
    ∀ s ∈ extract_linked_classes compilation_unit base_package,
      pyStartswith s "java." = false := by
  intro s hs
  have hbase : pyStartswith s base_package = true :=
    extract_mem_base compilation_unit base_package s hs
  cases h3 : pyStartswith s "java." with
  | false => rfl
  | true =>
    have hp1 : base_package.data <+: s.data :=
      List.isPrefixOf_iff_prefix.mp hbase
    have hp2 : ("java.").data <+: s.data :=
      List.isPrefixOf_iff_prefix.mp h3
    rcases List.prefix_or_prefix_of_prefix hp2 hp1 with hc | hc
    · have h4 : pyStartswith base_package "java." = true :=
        List.isPrefixOf_iff_prefix.mpr hc
      rw [h4] at h2
      exact Bool.noConfusion h2
    · have h4 : pyStartswith "java." base_package = true :=
        List.isPrefixOf_iff_prefix.mpr hc
      rw [h4] at h1
      exact Bool.noConfusion h1

/-- Witness for the amended C1 theorem at a concrete unit and base
namespace. -/
theorem c1_extract_never_std_root_witness :
    pyStartswith "com.example.Foo" "java." = false :=
  c1_extract_never_std_root_amended cuSibling "com.ex" (by decide) (by decide)
    "com.example.Foo" (by decide)

/-- Claim C3: in the chain scenario (A imports com.ex.B, B imports
com.ex.C, both resolvable under the root), depth 1 visits exactly
com.ex.B and depth 2 visits exactly com.ex.B and com.ex.C. -/
theorem c3_two_hop_scenario :
    find_linked_classes envChain fileA 1 "root" "com.ex" none = ["com.ex.B"]
    ∧ find_linked_classes envChain fileA 2 "root" "com.ex" none
        = ["com.ex.B", "com.ex.C"] := by
  decide

/-- Claim C7: the base-namespace filter is a literal string-prefix test;
with base namespace com.ex, a non-static import of com.example.Foo (a
sibling namespace merely sharing the prefix string) is classified as
in-scope and added, although it is not under com.ex. -/
theorem c7_prefix_filter_not_segment_aware :
    extract_linked_classes cuSibling "com.ex" = ["com.example.Foo"]
    ∧ pyStartswith "com.example.Foo" ("com.ex" ++ ".") = false := by
  decide

/-- Claim C8: a unit with no package declaration and a bare supertype
name S yields the leading-dot qualified name .S, which is then subjected
to the ordinary base-prefix filter; no special handling exists. -/
theorem c8_leading_dot_degenerate (base_package S : String)
    (h : S.data.contains '.' = false) :
    extract_linked_classes ⟨none, [], [⟨[S], []⟩]⟩ base_package
      = if pyStartswith ("." ++ S) base_package then ["." ++ S] else [] := by
  have hempty : ("" : String) ++ "." ++ S = "." ++ S := by
    apply String.ext
    simp [String.data_append]
  simp only [extract_linked_classes, Option.getD, List.foldl, typeStep,
    superStep, h, Bool.not_false, if_true, hempty, pyAdd,
    List.not_mem_nil, if_false]
  split
  · rfl
  · rfl

/-- Witness for the C8 theorem at the bare name B and the empty base
namespace. -/
theorem c8_leading_dot_degenerate_witness :
    extract_linked_classes ⟨none, [], [⟨["B"], []⟩]⟩ ""
      = if pyStartswith ("." ++ "B") "" then ["." ++ "B"] else [] :=
  c8_leading_dot_degenerate "" "B" (by decide)

/-! Traversal lemmas: what one file-processing step does to the parse
log, and unfolding equations of the level loop. -/

theorem processParsed_parsedLog (env : JEnv) (root_dir base_package : String)
    (s1 : TravState) (cu : CU) :
    (processParsed env root_dir base_package s1 cu).parsedLog =
      s1.parsedLog := by
  unfold processParsed
  split
  · rfl
  · rfl

theorem processFile_parsedLog (env : JEnv) (root_dir base_package : String)
    (s : TravState) (file : String) :
    (processFile env root_dir base_package s file).parsedLog =
      if file ∈ s.visitedFiles then s.parsedLog else s.parsedLog ++ [file] := by
  unfold processFile
  split
  · rfl
  · split
    · rfl
    · rw [processParsed_parsedLog]
      rfl

theorem foldl_processFile_parsedLog_mem (env : JEnv)
    (root_dir base_package : String) :
    ∀ (l : List String) (s : TravState) (x : String), x ∈ s.parsedLog →
      x ∈ (l.foldl (processFile env root_dir base_package) s).parsedLog := by
  intro l
  induction l with
  | nil => intro s x hx; exact hx
  | cons f t ih =>
    intro s x hx
    apply ih
    rw [processFile_parsedLog]
    split
    · exact hx
    · exact List.mem_append_left _ hx

theorem levelStep_parsedLog (env : JEnv) (root_dir base_package : String)
    (s : TravState) :
    (levelStep env root_dir base_package s).parsedLog =
      (s.frontier.foldl (processFile env root_dir base_package)
        { s with nextLevel := [] }).parsedLog := rfl

theorem runLevels_succ (env : JEnv) (root_dir base_package : String)
    (d : Nat) (s : TravState) :
    runLevels env root_dir base_package (d + 1) s =
      if (levelStep env root_dir base_package s).frontier.isEmpty then
        levelStep env root_dir base_package s
      else runLevels env root_dir base_package d
        (levelStep env root_dir base_package s) := rfl

theorem runLevels_succ_of_empty {env : JEnv} {root_dir base_package : String}
    {s : TravState} (d : Nat)
    (h : (levelStep env root_dir base_package s).frontier.isEmpty = true) :
    runLevels env root_dir base_package (d + 1) s =
      levelStep env root_dir base_package s := by
  rw [runLevels_succ, if_pos h]

theorem runLevels_succ_of_nonempty {env : JEnv} {root_dir base_package : String}
    {s : TravState} (d : Nat)
    (h : (levelStep env root_dir base_package s).frontier.isEmpty = false) :
    runLevels env root_dir base_package (d + 1) s =
      runLevels env root_dir base_package d
        (levelStep env root_dir base_package s) := by
  rw [runLevels_succ, if_neg (by simp [h])]

theorem runLevels_parsedLog_mem (env : JEnv) (root_dir base_package : String) :
    ∀ (d : Nat) (s : TravState) (x : String), x ∈ s.parsedLog →
      x ∈ (runLevels env root_dir base_package d s).parsedLog := by
  intro d
  induction d with
  | zero => intro s x hx; exact hx
  | succ d ih =>
    intro s x hx
    have hstep : x ∈ (levelStep env root_dir base_package s).parsedLog := by
      rw [levelStep_parsedLog]
      exact foldl_processFile_parsedLog_mem env root_dir base_package
        s.frontier _ x hx
    rw [runLevels_succ]
    split
    · exact hstep
    · exact ih _ x hstep

/-- Claim C2, as stated, is false on the code: with depth 0 the level
loop body never runs, so not even the target file is parsed. -/
theorem c2_depth_zero_counterexample :
    ¬ (∀ (env : JEnv) (target_file root_dir base_package : String)
        (cacheFile : Option (List String)),
        (find_linked_full env target_file 0 root_dir base_package
          cacheFile).parsedLog = [target_file]) := by
  intro h
  have h2 := h envChain fileA "root" "com.ex" none
  exact absurd h2 (by decide)

/-- Claim C2, amended: with depth 0 the traversal does nothing at all
(the final state is the initial state: no file parsed, empty visited
class set), and for every depth of at least 1 the target file is
parsed. -/
theorem c2_depth_semantics_amended (env : JEnv)
    (target_file root_dir base_package : String)
    (cacheFile : Option (List String)) :
    find_linked_full env target_file 0 root_dir base_package cacheFile
        = initState target_file cacheFile
    ∧ find_linked_classes env target_file 0 root_dir base_package cacheFile = []
    ∧ ∀ depth : Nat, 1 ≤ depth →
        target_file ∈ (find_linked_full env target_file depth root_dir
          base_package cacheFile).parsedLog := by
  refine ⟨rfl, rfl, ?_⟩
  intro depth hd
  obtain ⟨d, rfl⟩ : ∃ d, depth = d + 1 := ⟨depth - 1, by omega⟩
  show target_file ∈ (runLevels env root_dir base_package (d + 1)
    (initState target_file cacheFile)).parsedLog
  have hstep : target_file ∈ (levelStep env root_dir base_package
      (initState target_file cacheFile)).parsedLog := by
    have h0 : (levelStep env root_dir base_package
        (initState target_file cacheFile)).parsedLog
        = (processFile env root_dir base_package
          (initState target_file cacheFile) target_file).parsedLog := rfl
    rw [h0, processFile_parsedLog]
    split
    next h => exact absurd h (by simp [initState])
    next h => simp [initState]
  rw [runLevels_succ]
  split
  · exact hstep
  · exact runLevels_parsedLog_mem env root_dir base_package d _
      target_file hstep

/-- Witness for the amended C2 theorem: at depth 1 in the chain
scenario, the target file is parsed. -/
theorem c2_depth_semantics_witness :
    fileA ∈ (find_linked_full envChain fileA 1 "root" "com.ex"
      none).parsedLog :=
  (c2_depth_semantics_amended envChain fileA "root" "com.ex" none).2.2 1
    (by omega)

/-- Claim C4: in the two-class reference cycle, the traversal reaches a
fixed point at depth 3 (so it terminates identically for every larger
depth bound), every file is passed to the parser at most once, and every
class name enters the visited set at most once (never re-queued). -/
theorem c4_cycle_termination : ∀ depth : Nat,
    (find_linked_full envCycle fileA depth "root" "com.ex"
      none).parsedLog.Nodup
    ∧ (find_linked_full envCycle fileA depth "root" "com.ex"
      none).queuedLog.Nodup
    ∧ find_linked_full envCycle fileA (depth + 3) "root" "com.ex" none
        = find_linked_full envCycle fileA 3 "root" "com.ex" none := by
  have hf1 : ((levelStep envCycle "root" "com.ex"
      (initState fileA none)).frontier.isEmpty) = false := by decide
  have hf2 : ((levelStep envCycle "root" "com.ex" (levelStep envCycle "root"
      "com.ex" (initState fileA none))).frontier.isEmpty) = false := by decide
  have hf3 : ((levelStep envCycle "root" "com.ex" (levelStep envCycle "root"
      "com.ex" (levelStep envCycle "root" "com.ex"
      (initState fileA none)))).frontier.isEmpty) = true := by decide
  have key : ∀ k : Nat, find_linked_full envCycle fileA (k + 3) "root"
      "com.ex" none = find_linked_full envCycle fileA 3 "root" "com.ex"
      none := by
    intro k
    show runLevels envCycle "root" "com.ex" (k + 2 + 1) (initState fileA none)
      = runLevels envCycle "root" "com.ex" (2 + 1) (initState fileA none)
    rw [runLevels_succ_of_nonempty (k + 2) hf1,
      runLevels_succ_of_nonempty 2 hf1]
    show runLevels envCycle "root" "com.ex" (k + 1 + 1) _
      = runLevels envCycle "root" "com.ex" (1 + 1) _
    rw [runLevels_succ_of_nonempty (k + 1) hf2,
      runLevels_succ_of_nonempty 1 hf2]
    rw [runLevels_succ_of_empty k hf3, runLevels_succ_of_empty 0 hf3]
  intro depth
  rcases depth with _ | _ | _ | k
  · exact ⟨by decide, by decide, key 0⟩
  · exact ⟨by decide, by decide, key 1⟩
  · exact ⟨by decide, by decide, key 2⟩
  · refine ⟨?_, ?_, key (k + 3)⟩
    · rw [show k + 1 + 1 + 1 = k + 3 from rfl, key k]
      decide
    · rw [show k + 1 + 1 + 1 = k + 3 from rfl, key k]
      decide

/-! Cache lemmas: membership through the dict operations, liveness of
every cache value, and the resulting behaviour of the per-name loop. -/

theorem lookupCache_mem {c : Cache} {n p : String}
    (h : lookupCache c n = some p) : (n, p) ∈ c := by
  induction c with
  | nil => exact absurd h (by simp [lookupCache])
  | cons e t ih =>
    obtain ⟨k, v⟩ := e
    rw [lookupCache] at h
    split at h
    · rename_i hk
      obtain rfl : v = p := Option.some.inj h
      subst hk
      exact List.mem_cons_self _ _
    · exact List.mem_cons_of_mem _ (ih h)

theorem mem_updateCache {c : Cache} {n p : String} {e : String × String}
    (h : e ∈ updateCache c n p) : e ∈ c ∨ e = (n, p) := by
  induction c with
  | nil =>
    rw [updateCache] at h
    exact Or.inr (List.mem_singleton.mp h)
  | cons f t ih =>
    obtain ⟨k, v⟩ := f
    rw [updateCache] at h
    split at h
    · rename_i hk
      subst hk
      rcases List.mem_cons.mp h with h2 | h2
      · exact Or.inr (by rw [h2])
      · exact Or.inl (List.mem_cons_of_mem _ h2)
    · rcases List.mem_cons.mp h with h2 | h2
      · exact Or.inl (h2 ▸ List.mem_cons_self _ _)
      · rcases ih h2 with h3 | h3
        · exact Or.inl (List.mem_cons_of_mem _ h3)
        · exact Or.inr h3

theorem mem_eraseCache {c : Cache} {n : String} {e : String × String}
    (h : e ∈ eraseCache c n) : e ∈ c := by
  induction c with
  | nil => exact absurd h (by simp [eraseCache])
  | cons f t ih =>
    obtain ⟨k, v⟩ := f
    rw [eraseCache] at h
    split at h
    · exact List.mem_cons_of_mem _ h
    · rcases List.mem_cons.mp h with h2 | h2
      · exact h2 ▸ List.mem_cons_self _ _
      · exact List.mem_cons_of_mem _ (ih h2)

theorem cacheLive_updateCache {env : JEnv} {c : Cache} {n p : String}
    (hl : CacheLive env c) (hp : env.fexists p = true) :
    CacheLive env (updateCache c n p) := by
  intro e he
  rcases mem_updateCache he with h2 | h2
  · exact hl e h2
  · rw [h2]
    exact hp

theorem cacheLive_eraseCache {env : JEnv} {c : Cache} {n : String}
    (hl : CacheLive env c) : CacheLive env (eraseCache c n) :=
  fun e he => hl e (mem_eraseCache he)

theorem cacheLive_loadLineStep {env : JEnv} {c : Cache} {line : String}
    (hl : CacheLive env c) : CacheLive env (loadLineStep env c line) := by
  unfold loadLineStep
  split
  · split
    · exact cacheLive_updateCache hl (by assumption)
    · exact hl
  · exact hl

theorem cacheLive_load (env : JEnv) (cacheFile : Option (List String)) :
    CacheLive env (load_cache env cacheFile) := by
  cases cacheFile with
  | none => intro e he; exact absurd he (by simp [load_cache])
  | some lines =>
    show CacheLive env (lines.foldl (loadLineStep env) [])
    have key : ∀ (l : List String) (acc : Cache), CacheLive env acc →
        CacheLive env (l.foldl (loadLineStep env) acc) := by
      intro l
      induction l with
      | nil => intro acc h; exact h
      | cons x t ih => intro acc h; exact ih _ (cacheLive_loadLineStep h)
    exact key lines [] (fun e he => absurd he (List.not_mem_nil e))

theorem searchClass_exists {env : JEnv} {root_dir class_name p : String}
    (h : searchClass env root_dir class_name = some p) :
    env.fexists p = true := by
  unfold searchClass at h
  cases hf : (searchDirs env root_dir).find?
      (fun base_dir =>
        env.fexists (base_dir ++ "/" ++ classRelPath class_name)) with
  | none => rw [hf] at h; exact absurd h (by simp)
  | some d =>
    rw [hf] at h
    obtain rfl : d ++ "/" ++ classRelPath class_name = p :=
      Option.some.inj h
    have h2 := List.find?_some hf
    simpa using h2

theorem fcpSearch_paths {env : JEnv} {root_dir : String} {st : FCPState}
    {class_name p : String}
    (h : p ∈ (fcpSearch env root_dir st class_name).paths) :
    p ∈ st.paths ∨ env.fexists p = true := by
  unfold fcpSearch at h
  cases hs : searchClass env root_dir class_name with
  | none => rw [hs] at h; exact Or.inl h
  | some q =>
    rw [hs] at h
    rcases List.mem_append.mp h with h2 | h2
    · exact Or.inl h2
    · obtain rfl : p = q := List.mem_singleton.mp h2
      exact Or.inr (searchClass_exists hs)

theorem fcpStep_paths {env : JEnv} {root_dir : String} {st : FCPState}
    {class_name p : String}
    (h : p ∈ (fcpStep env root_dir st class_name).paths) :
    p ∈ st.paths ∨ env.fexists p = true := by
  unfold fcpStep at h
  split at h
  · split at h
    · rcases List.mem_append.mp h with h2 | h2
      · exact Or.inl h2
      · rename_i hex
        obtain rfl : p = _ := List.mem_singleton.mp h2
        exact Or.inr hex
    · rcases fcpSearch_paths h with h2 | h2
      · exact Or.inl h2
      · exact Or.inr h2
  · exact fcpSearch_paths h

theorem fcp_fold_paths (env : JEnv) (root_dir : String) :
    ∀ (l : List String) (st : FCPState),
      (∀ p ∈ st.paths, env.fexists p = true) →
      ∀ p ∈ (l.foldl (fcpStep env root_dir) st).paths,
        env.fexists p = true := by
  intro l
  induction l with
  | nil => intro st h; exact h
  | cons x t ih =>
    intro st h
    apply ih
    intro p hp
    rcases fcpStep_paths hp with h2 | h2
    · exact h p h2
    · exact h2

/-- Claim C5: resolution never returns a dead path (every path in a
batch result exists on disk), and in the stale-cache scenario the real
path root/src/com/ex/B.java is returned and the persisted cache file
afterwards holds the corrected mapping. -/
theorem c5_no_dead_path :
    (∀ (env : JEnv) (class_names : List String) (root_dir : String)
        (cacheFile : Option (List String)) (p : String),
        p ∈ (find_class_paths env class_names root_dir cacheFile).paths →
        env.fexists p = true)
    ∧ find_class_paths envStale ["com.ex.B"] "root"
        (some ["com.ex.B=root/old/B.java"])
      = ⟨[fileB], some ["com.ex.B=root/src/com/ex/B.java"], true, 0⟩ := by
  constructor
  · intro env class_names root_dir cacheFile p hp
    exact fcp_fold_paths env root_dir class_names
      ⟨[], load_cache env cacheFile, false, 0⟩
      (fun q hq => absurd hq (List.not_mem_nil q)) p hp
  · decide

/-- Witness for the universal part of the C5 theorem at the stale-cache
scenario. -/
theorem c5_no_dead_path_witness : envStale.fexists fileB = true :=
  c5_no_dead_path.1 envStale ["com.ex.B"] "root"
    (some ["com.ex.B=root/old/B.java"]) fileB (by decide)

theorem fcpStep_evict_cacheLive (env : JEnv) (root_dir : String)
    (st : FCPState) (class_name : String) (hl : CacheLive env st.cache) :
    (fcpStep env root_dir st class_name).evict = st.evict
    ∧ CacheLive env (fcpStep env root_dir st class_name).cache := by
  unfold fcpStep
  split
  · rename_i cached hc
    split
    · exact ⟨rfl, hl⟩
    · rename_i hdead
      have hex : env.fexists cached = true :=
        hl (class_name, cached) (lookupCache_mem hc)
      exact absurd hex hdead
  · unfold fcpSearch
    split
    · rename_i q hs
      exact ⟨rfl, cacheLive_updateCache hl (searchClass_exists hs)⟩
    · exact ⟨rfl, hl⟩

theorem fcp_fold_evict (env : JEnv) (root_dir : String) :
    ∀ (l : List String) (st : FCPState), CacheLive env st.cache →
      (l.foldl (fcpStep env root_dir) st).evict = st.evict
      ∧ CacheLive env (l.foldl (fcpStep env root_dir) st).cache := by
  intro l
  induction l with
  | nil => intro st h; exact ⟨rfl, h⟩
  | cons x t ih =>
    intro st h
    obtain ⟨h1, h2⟩ := fcpStep_evict_cacheLive env root_dir st x h
    obtain ⟨h3, h4⟩ := ih (fcpStep env root_dir st x) h2
    exact ⟨by rw [List.foldl_cons, h3, h1], h4⟩

/-- Claim C10: every entry the cache loader returns maps to a path that
exists at load time, and consequently (the filesystem being constant
within a batch) the in-batch stale-entry eviction branch of
`find_class_paths` never runs. -/
theorem c10_loaded_paths_exist_evict_unreachable (env : JEnv)
    (cacheFile : Option (List String)) :
    (∀ n p : String, (n, p) ∈ load_cache env cacheFile →
      env.fexists p = true)
    ∧ (∀ (class_names : List String) (root_dir : String),
        (find_class_paths env class_names root_dir cacheFile).evictCount
          = 0) := by
  constructor
  · intro n p h
    exact cacheLive_load env cacheFile (n, p) h
  · intro class_names root_dir
    exact (fcp_fold_evict env root_dir class_names
      ⟨[], load_cache env cacheFile, false, 0⟩
      (cacheLive_load env cacheFile)).1

/-- Witness for the C10 theorem at a one-line cache file whose path
exists. -/
theorem c10_loaded_paths_witness :
    envLoadW.fexists "p.java" = true
    ∧ (find_class_paths envLoadW ["x"] "root"
        (some ["a=p.java"])).evictCount = 0 :=
  ⟨(c10_loaded_paths_exist_evict_unreachable envLoadW
      (some ["a=p.java"])).1 "a" "p.java" (by decide),
   (c10_loaded_paths_exist_evict_unreachable envLoadW
      (some ["a=p.java"])).2 ["x"] "root"⟩

/-! Deduplication and writer lemmas used for the output-assembly claim. -/

theorem pyAdd_nodup {acc : List String} {x : String} (h : acc.Nodup) :
    (pyAdd acc x).Nodup := by
  unfold pyAdd
  split
  · exact h
  · rename_i hx
    simp [List.nodup_append, h, hx]

theorem mem_pyAdd_iff {acc : List String} {x y : String} :
    y ∈ pyAdd acc x ↔ y ∈ acc ∨ y = x := by
  unfold pyAdd
  split
  · rename_i hx
    constructor
    · exact Or.inl
    · rintro (h | rfl)
      · exact h
      · exact hx
  · simp

theorem pyDedup_fold_nodup :
    ∀ (l acc : List String), acc.Nodup → (l.foldl pyAdd acc).Nodup := by
  intro l
  induction l with
  | nil => intro acc h; exact h
  | cons x t ih => intro acc h; exact ih _ (pyAdd_nodup h)

theorem pyDedup_fold_mem :
    ∀ (l acc : List String) (y : String),
      y ∈ l.foldl pyAdd acc ↔ y ∈ acc ∨ y ∈ l := by
  intro l
  induction l with
  | nil => intro acc y; simp
  | cons x t ih =>
    intro acc y
    rw [List.foldl_cons, ih, mem_pyAdd_iff]
    simp [or_assoc]

theorem nodup_pyDedup (l : List String) : (pyDedup l).Nodup :=
  pyDedup_fold_nodup l [] List.nodup_nil

theorem mem_pyDedup {l : List String} {y : String} :
    y ∈ pyDedup l ↔ y ∈ l := by
  unfold pyDedup
  rw [pyDedup_fold_mem]
  simp

theorem writeStepTxt_out (env : JEnv) (out file_path : String) :
    writeStepTxt env out file_path = out ++ writeStepTxt env "" file_path := by
  unfold writeStepTxt
  cases env.readFile file_path with
  | some content => simp
  | none => simp

theorem write_foldl_out (env : JEnv) :
    ∀ (l : List String) (out : String),
      l.foldl (writeStepTxt env) out = out ++ write_linked_files env l := by
  intro l
  induction l with
  | nil => intro out; simp [write_linked_files]
  | cons f t ih =>
    intro out
    rw [List.foldl_cons, ih]
    show _ = out ++ (f :: t).foldl (writeStepTxt env) ""
    rw [List.foldl_cons, ih (writeStepTxt env "" f)]
    rw [writeStepTxt_out env out f, String.append_assoc]

theorem write_cons (env : JEnv) (f : String) (l : List String) :
    write_linked_files env (f :: l) =
      writeStepTxt env "" f ++ write_linked_files env l := by
  show (f :: l).foldl (writeStepTxt env) "" = _
  rw [List.foldl_cons, write_foldl_out]

theorem write_append (env : JEnv) (l1 l2 : List String) :
    write_linked_files env (l1 ++ l2) =
      write_linked_files env l1 ++ write_linked_files env l2 := by
  induction l1 with
  | nil =>
    show write_linked_files env l2 = write_linked_files env [] ++ _
    simp [write_linked_files]
  | cons f t ih =>
    rw [List.cons_append, write_cons, ih, write_cons, String.append_assoc]

/-- Claim C9: the file list main hands to the writer starts with the
target file, ahead of all resolved dependency files; when the target is
also among the resolved paths it occurs twice in the list, and the txt
bundle contains its block twice. -/
theorem c9_target_first_written_twice (env : JEnv)
    (target_java_class : String) (resolved : List String) :
    (mainLinkedFiles target_java_class resolved).head? = some target_java_class
    ∧ (target_java_class ∈ resolved →
        List.count target_java_class
          (mainLinkedFiles target_java_class resolved) = 2)
    ∧ (∀ content : String, target_java_class ∈ resolved →
        env.readFile target_java_class = some content →
        ∃ mid post : String,
          write_linked_files env (mainLinkedFiles target_java_class resolved)
            = txtBlock target_java_class content ++ mid
              ++ txtBlock target_java_class content ++ post) := by
  refine ⟨rfl, ?_, ?_⟩
  · intro ht
    show List.count target_java_class
      (target_java_class :: pyDedup resolved) = 2
    rw [List.count_cons_self,
      List.count_eq_one_of_mem (nodup_pyDedup resolved) (mem_pyDedup.mpr ht)]
  · intro content ht hread
    obtain ⟨u, v, huv⟩ := List.append_of_mem (mem_pyDedup.mpr ht)
    have hstep : writeStepTxt env "" target_java_class
        = txtBlock target_java_class content := by
      unfold writeStepTxt
      rw [hread]
      simp
    refine ⟨write_linked_files env u, write_linked_files env v, ?_⟩
    show write_linked_files env (target_java_class :: pyDedup resolved) = _
    rw [huv, write_cons, write_append, write_cons, hstep]
    simp [String.append_assoc]

/-- Witness for the C9 theorem: target T.java also among the resolved
paths, its block written twice. -/
theorem c9_target_first_witness :
    List.count "T.java" (mainLinkedFiles "T.java" ["T.java"]) = 2
    ∧ ∃ mid post : String,
        write_linked_files envWriter (mainLinkedFiles "T.java" ["T.java"])
          = txtBlock "T.java" "package t; class T {}" ++ mid
            ++ txtBlock "T.java" "package t; class T {}" ++ post :=
  ⟨(c9_target_first_written_twice envWriter "T.java" ["T.java"]).2.1
      (by decide),
   (c9_target_first_written_twice envWriter "T.java" ["T.java"]).2.2
      "package t; class T {}" (by decide) (by decide)⟩

/-! Character-level lemmas about strip and split: a well-formed
`name=path` line parses back to the (name, path) pair, and a parsed pair
is itself well formed. -/

theorem mkData_eq (s : String) : String.mk s.data = s := by
  cases s
  rfl

theorem dropWhile_ws_eq_self {l : List Char}
    (h : ∀ c, l.head? = some c → c.isWhitespace = false) :
    l.dropWhile Char.isWhitespace = l := by
  cases l with
  | nil => rfl
  | cons a t =>
    rw [List.dropWhile_cons, h a rfl]
    simp

theorem dropWhile_head_not {P : Char → Bool} {l : List Char}
    (h : l.dropWhile P = l) : ∀ c, l.head? = some c → P c = false := by
  intro c hc
  cases l with
  | nil => exact absurd hc (by simp)
  | cons a t =>
    obtain rfl : a = c := by simpa using hc
    rw [List.dropWhile_cons] at h
    by_cases hP : P a = true
    · rw [if_pos hP] at h
      have hsuf : t.dropWhile P <:+ t := List.dropWhile_suffix P
      have hlen := hsuf.length_le
      rw [h] at hlen
      simp at hlen
    · cases hpc : P a
      · rfl
      · exact absurd hpc hP

theorem append_leftclean {P : Char → Bool} {l2 l3 : List Char}
    (h : (l2 ++ l3).dropWhile P = l2 ++ l3) : l2.dropWhile P = l2 := by
  cases l2 with
  | nil => rfl
  | cons a t =>
    rw [List.cons_append, List.dropWhile_cons] at h
    by_cases hP : P a = true
    · rw [if_pos hP] at h
      have hsuf : (t ++ l3).dropWhile P <:+ (t ++ l3) := List.dropWhile_suffix P
      have hlen := hsuf.length_le
      rw [h] at hlen
      simp at hlen
    · rw [List.dropWhile_cons, if_neg hP]

theorem pyStrip_data (s : String) :
    (pyStrip s).data =
      ((s.data.dropWhile Char.isWhitespace).reverse.dropWhile
        Char.isWhitespace).reverse := rfl

theorem pyStrip_leftclean (s : String) :
    (pyStrip s).data.dropWhile Char.isWhitespace = (pyStrip s).data := by
  rw [pyStrip_data]
  have hsuf : (s.data.dropWhile Char.isWhitespace).reverse.dropWhile
      Char.isWhitespace <:+ (s.data.dropWhile Char.isWhitespace).reverse :=
    List.dropWhile_suffix Char.isWhitespace
  obtain ⟨pre, hpre⟩ := hsuf
  have hlc2 : ((s.data.dropWhile Char.isWhitespace).reverse.dropWhile
      Char.isWhitespace).reverse ++ pre.reverse
      = s.data.dropWhile Char.isWhitespace := by
    rw [← List.reverse_append, hpre, List.reverse_reverse]
  have hclean : (s.data.dropWhile Char.isWhitespace).dropWhile
      Char.isWhitespace = s.data.dropWhile Char.isWhitespace :=
    List.dropWhile_idempotent Char.isWhitespace s.data
  rw [← hlc2] at hclean
  exact append_leftclean hclean

theorem pyStrip_rightclean (s : String) :
    (pyStrip s).data.reverse.dropWhile Char.isWhitespace
      = (pyStrip s).data.reverse := by
  rw [pyStrip_data, List.reverse_reverse]
  exact List.dropWhile_idempotent Char.isWhitespace
    (s.data.dropWhile Char.isWhitespace).reverse

theorem mem_dropWhile_of_not {P : Char → Bool} {c : Char} :
    ∀ {l : List Char}, c ∈ l → P c = false → c ∈ l.dropWhile P := by
  intro l
  induction l with
  | nil => intro h _; exact absurd h (by simp)
  | cons a t ih =>
    intro h hc
    rw [List.dropWhile_cons]
    by_cases hPa : P a = true
    · rw [if_pos hPa]
      rcases List.mem_cons.mp h with rfl | h2
      · rw [hc] at hPa
        exact Bool.noConfusion hPa
      · exact ih h2 hc
    · rw [if_neg hPa]
      exact h

theorem mem_pyStrip {s : String} {c : Char} (h : c ∈ s.data)
    (hc : c.isWhitespace = false) : c ∈ (pyStrip s).data := by
  rw [pyStrip_data, List.mem_reverse]
  apply mem_dropWhile_of_not _ hc
  rw [List.mem_reverse]
  exact mem_dropWhile_of_not h hc

theorem dropWhile_ne_mem {l : List Char} (h : '=' ∈ l) :
    ∃ r, l.dropWhile (fun c => c ≠ '=') = '=' :: r := by
  induction l with
  | nil => exact absurd h (by simp)
  | cons a t ih =>
    rw [List.dropWhile_cons]
    by_cases ha : a = '='
    · subst ha
      rw [if_neg (by simp)]
      exact ⟨t, rfl⟩
    · rw [if_pos (by simp [ha])]
      apply ih
      rcases List.mem_cons.mp h with h2 | h2
      · exact absurd h2.symm ha
      · exact h2

theorem takeWhile_ne_not_mem (l : List Char) :
    (l.takeWhile (fun c => c ≠ '=')).contains '=' = false := by
  by_cases h : '=' ∈ l.takeWhile (fun c => c ≠ '=')
  · have h2 := List.mem_takeWhile_imp h
    simp at h2
  · simpa using h

theorem head_takeWhile {P : Char → Bool} {l : List Char} {c : Char}
    (h : (l.takeWhile P).head? = some c) : l.head? = some c := by
  cases l with
  | nil => exact absurd h (by simp)
  | cons a t =>
    rw [List.takeWhile_cons] at h
    by_cases hPa : P a = true
    · rw [if_pos hPa] at h
      simpa using h
    · rw [if_neg hPa] at h
      exact absurd h (by simp)

theorem split_at_marker {x : List Char} (hx : x.contains '=' = false)
    (y : List Char) :
    (x ++ '=' :: y).takeWhile (fun c => c ≠ '=') = x
    ∧ (x ++ '=' :: y).dropWhile (fun c => c ≠ '=') = '=' :: y := by
  induction x with
  | nil =>
    constructor
    · rw [List.nil_append, List.takeWhile_cons]
      simp
    · rw [List.nil_append, List.dropWhile_cons]
      simp
  | cons a t ih =>
    simp only [List.contains_cons, Bool.or_eq_false_iff] at hx
    have ha : a ≠ '=' := by
      intro hcontra
      rw [hcontra] at hx
      simp at hx
    obtain ⟨ht, hd⟩ := ih hx.2
    constructor
    · rw [List.cons_append, List.takeWhile_cons, if_pos (by simp [ha]), ht]
    · rw [List.cons_append, List.dropWhile_cons, if_pos (by simp [ha]), hd]

theorem parse_of_canonical {n p : String}
    (hn : n.data.contains '=' = false)
    (hn2 : ∀ c, n.data.head? = some c → c.isWhitespace = false)
    (hp : ∀ c, p.data.reverse.head? = some c → c.isWhitespace = false) :
    splitEqOnce (pyStrip (n ++ "=" ++ p)) = (n, p) := by
  have heqd : ("=" : String).data = ['='] := rfl
  have hdata : (n ++ "=" ++ p).data = n.data ++ '=' :: p.data := by
    rw [String.data_append, String.data_append, heqd, List.append_assoc]
    rfl
  have hleft : (n.data ++ '=' :: p.data).dropWhile Char.isWhitespace
      = n.data ++ '=' :: p.data := by
    apply dropWhile_ws_eq_self
    intro c hc
    cases hnd : n.data with
    | nil =>
      rw [hnd] at hc
      simp at hc
      rw [← hc]
      decide
    | cons a t =>
      rw [hnd] at hc
      simp at hc
      apply hn2
      rw [hnd, ← hc]
      rfl
  have hright : ((p.data.reverse ++ ['=']) ++ n.data.reverse).dropWhile
      Char.isWhitespace = (p.data.reverse ++ ['=']) ++ n.data.reverse := by
    apply dropWhile_ws_eq_self
    intro c hc
    cases hpd : p.data.reverse with
    | nil =>
      rw [hpd] at hc
      simp at hc
      rw [← hc]
      decide
    | cons a t =>
      rw [hpd] at hc
      simp at hc
      apply hp
      rw [hpd, ← hc]
      rfl
  have hstrip : (pyStrip (n ++ "=" ++ p)).data = n.data ++ '=' :: p.data := by
    rw [pyStrip_data, hdata, hleft, List.reverse_append, List.reverse_cons,
      hright, List.reverse_append, List.reverse_append, List.reverse_reverse,
      List.reverse_reverse]
    simp
  obtain ⟨htake, hdrop⟩ := split_at_marker hn p.data
  show (String.mk ((pyStrip (n ++ "=" ++ p)).data.takeWhile
      (fun c => c ≠ '=')),
    String.mk (((pyStrip (n ++ "=" ++ p)).data.dropWhile
      (fun c => c ≠ '=')).drop 1)) = (n, p)
  rw [hstrip, htake, hdrop]
  show (String.mk n.data, String.mk p.data) = (n, p)
  rw [mkData_eq, mkData_eq]

theorem entryLine_contains (n p : String) :
    (n ++ "=" ++ p).data.contains '=' = true := by
  have heqd : ("=" : String).data = ['='] := rfl
  rw [String.data_append, String.data_append, heqd]
  simp

theorem parsed_canonical (line : String)
    (h : line.data.contains '=' = true) :
    splitEqOnce (pyStrip ((splitEqOnce (pyStrip line)).1 ++ "="
      ++ (splitEqOnce (pyStrip line)).2))
      = splitEqOnce (pyStrip line) := by
  have hmem : '=' ∈ (pyStrip line).data := by
    apply mem_pyStrip
    · simpa using h
    · decide
  obtain ⟨r, hr⟩ := dropWhile_ne_mem hmem
  have h1data : (splitEqOnce (pyStrip line)).1.data
      = (pyStrip line).data.takeWhile (fun c => c ≠ '=') := rfl
  have h2data : (splitEqOnce (pyStrip line)).2.data = r := by
    show ((pyStrip line).data.dropWhile (fun c => c ≠ '=')).drop 1 = r
    rw [hr]
    rfl
  have hrecon : (pyStrip line).data
      = (pyStrip line).data.takeWhile (fun c => c ≠ '=') ++ '=' :: r := by
    have key := List.takeWhile_append_dropWhile (fun c => (c : Char) ≠ '=')
      (pyStrip line).data
    rw [hr] at key
    exact key.symm
  apply parse_of_canonical
  · rw [h1data]
    exact takeWhile_ne_not_mem (pyStrip line).data
  · intro c hc
    rw [h1data] at hc
    have hc2 := head_takeWhile hc
    exact dropWhile_head_not (pyStrip_leftclean line) c hc2
  · intro c hc
    rw [h2data] at hc
    cases hrv : r.reverse with
    | nil =>
      rw [hrv] at hc
      exact absurd hc (by simp)
    | cons a t =>
      rw [hrv] at hc
      have hca : a = c := by simpa using hc
      subst hca
      apply dropWhile_head_not (pyStrip_rightclean line)
      rw [hrecon, List.reverse_append, List.reverse_cons, hrv]
      rfl

theorem path_reverse_head (base_dir n : String) :
    (base_dir ++ "/" ++ classRelPath n).data.reverse.head? = some 'a' := by
  have h1 : (classRelPath n).data
      = (n.data.map (fun c => if c = '.' then '/' else c))
        ++ ['.', 'j', 'a', 'v', 'a'] := by
    show (String.mk (n.data.map (fun c => if c = '.' then '/' else c))
      ++ ".java").data = _
    rw [String.data_append]
  rw [String.data_append, h1, List.reverse_append, List.reverse_append]
  rfl

theorem canonical_of_safe {n : String} (hn : cacheSafeName n = true)
    (base_dir : String) :
    splitEqOnce (pyStrip (n ++ "=" ++ (base_dir ++ "/" ++ classRelPath n)))
      = (n, base_dir ++ "/" ++ classRelPath n) := by
  unfold cacheSafeName at hn
  rw [Bool.and_eq_true] at hn
  apply parse_of_canonical
  · have h2 := hn.1
    cases hcc : n.data.contains '='
    · rfl
    · rw [hcc] at h2
      exact Bool.noConfusion h2
  · intro c hc
    have h2 := hn.2
    cases hnd : n.data with
    | nil =>
      rw [hnd] at hc
      exact absurd hc (by simp)
    | cons a t =>
      rw [hnd] at hc
      have hca : a = c := by simpa using hc
      subst hca
      rw [hnd] at h2
      simpa using h2
  · intro c hc
    rw [path_reverse_head] at hc
    have hca : 'a' = c := by simpa using hc
    subst hca
    decide

/-! Dict lemmas for the in-memory cache and invariants of the loader. -/

theorem lookup_updateCache_self (c : Cache) (n p : String) :
    lookupCache (updateCache c n p) n = some p := by
  induction c with
  | nil => simp [updateCache, lookupCache]
  | cons e t ih =>
    obtain ⟨k, v⟩ := e
    rw [updateCache]
    by_cases hk : k = n
    · rw [if_pos hk, lookupCache, if_pos hk]
    · rw [if_neg hk, lookupCache, if_neg hk]
      exact ih

theorem lookup_updateCache_ne {m n : String} (c : Cache) (p : String)
    (h : m ≠ n) :
    lookupCache (updateCache c m p) n = lookupCache c n := by
  induction c with
  | nil => simp [updateCache, lookupCache, h]
  | cons e t ih =>
    obtain ⟨k, v⟩ := e
    rw [updateCache]
    by_cases hk : k = m
    · subst hk
      rw [if_pos rfl, lookupCache, lookupCache, if_neg h, if_neg h]
    · rw [if_neg hk, lookupCache, lookupCache]
      by_cases hkn : k = n
      · rw [if_pos hkn, if_pos hkn]
      · rw [if_neg hkn, if_neg hkn]
        exact ih

theorem keys_updateCache (c : Cache) (n p : String) :
    (updateCache c n p).map Prod.fst =
      if n ∈ c.map Prod.fst then c.map Prod.fst
      else c.map Prod.fst ++ [n] := by
  induction c with
  | nil => simp [updateCache]
  | cons e t ih =>
    obtain ⟨k, v⟩ := e
    rw [updateCache]
    by_cases hk : k = n
    · subst hk
      simp
    · have hkn : ¬ (n = k) := fun hcontra => hk hcontra.symm
      rw [if_neg hk]
      by_cases hn : n ∈ t.map Prod.fst
      · simp [ih, hn, hkn]
      · simp [ih, hn, hkn]

theorem cacheKeys_updateCache {c : Cache} {n p : String} (h : CacheKeys c) :
    CacheKeys (updateCache c n p) := by
  unfold CacheKeys at h ⊢
  rw [keys_updateCache]
  split
  · exact h
  · rename_i hn
    simp [List.nodup_append, h, hn]

theorem cacheCanon_updateCache {c : Cache} {n p : String} (h : CacheCanon c)
    (hnew : splitEqOnce (pyStrip (n ++ "=" ++ p)) = (n, p)) :
    CacheCanon (updateCache c n p) := by
  intro e he
  rcases mem_updateCache he with h2 | h2
  · exact h e h2
  · subst h2
    exact hnew

theorem updateCache_fresh {c : Cache} {n : String} (p : String)
    (h : n ∉ c.map Prod.fst) : updateCache c n p = c ++ [(n, p)] := by
  induction c with
  | nil => rfl
  | cons e t ih =>
    obtain ⟨k, v⟩ := e
    rw [updateCache]
    have hk : ¬ (k = n) := by
      intro hcontra
      subst hcontra
      exact h (by simp)
    rw [if_neg hk, List.cons_append]
    congr 1
    apply ih
    intro hcontra
    exact h (by simp [hcontra])

theorem loadLineStep_inv {env : JEnv} {c : Cache} {line : String}
    (hc : CacheCanon c) (hk : CacheKeys c) :
    CacheCanon (loadLineStep env c line)
    ∧ CacheKeys (loadLineStep env c line) := by
  unfold loadLineStep
  split
  · rename_i hcontains
    split
    · refine ⟨?_, cacheKeys_updateCache hk⟩
      apply cacheCanon_updateCache hc
      rw [parsed_canonical line hcontains]
    · exact ⟨hc, hk⟩
  · exact ⟨hc, hk⟩

theorem load_inv (env : JEnv) (cacheFile : Option (List String)) :
    CacheCanon (load_cache env cacheFile)
    ∧ CacheKeys (load_cache env cacheFile) := by
  cases cacheFile with
  | none =>
    exact ⟨fun e he => absurd he (List.not_mem_nil e), List.nodup_nil⟩
  | some lines =>
    show CacheCanon (lines.foldl (loadLineStep env) []) ∧ _
    have key : ∀ (l : List String) (acc : Cache), CacheCanon acc →
        CacheKeys acc →
        CacheCanon (l.foldl (loadLineStep env) acc)
        ∧ CacheKeys (l.foldl (loadLineStep env) acc) := by
      intro l
      induction l with
      | nil => intro acc h1 h2; exact ⟨h1, h2⟩
      | cons x t ih =>
        intro acc h1 h2
        obtain ⟨h3, h4⟩ := loadLineStep_inv h1 h2
        exact ih _ h3 h4
    exact key lines [] (fun e he => absurd he (List.not_mem_nil e))
      List.nodup_nil

/-! Equation lemmas for the per-name resolution step (the eviction
branch is impossible against a live cache, see
fcpStep_evict_cacheLive). -/

theorem fcpStep_eq_hit {env : JEnv} {root_dir : String} {st : FCPState}
    {class_name p : String}
    (hl : lookupCache st.cache class_name = some p)
    (hfe : env.fexists p = true) :
    fcpStep env root_dir st class_name
      = { st with paths := st.paths ++ [p] } := by
  unfold fcpStep
  split
  · rename_i cached hc
    rw [hl] at hc
    obtain rfl := Option.some.inj hc
    rw [if_pos hfe]
  · rename_i hc
    rw [hl] at hc
    exact Option.noConfusion hc

theorem fcpStep_eq_found {env : JEnv} {root_dir : String} {st : FCPState}
    {class_name p : String}
    (hl : lookupCache st.cache class_name = none)
    (hs : searchClass env root_dir class_name = some p) :
    fcpStep env root_dir st class_name
      = { st with paths := st.paths ++ [p],
                  cache := updateCache st.cache class_name p,
                  updated := true } := by
  unfold fcpStep
  split
  · rename_i cached hc
    rw [hl] at hc
    exact Option.noConfusion hc
  · unfold fcpSearch
    split
    · rename_i q hq
      rw [hs] at hq
      obtain rfl := Option.some.inj hq
      rfl
    · rename_i hq
      rw [hs] at hq
      exact Option.noConfusion hq

theorem fcpStep_eq_missing {env : JEnv} {root_dir : String} {st : FCPState}
    {class_name : String}
    (hl : lookupCache st.cache class_name = none)
    (hs : searchClass env root_dir class_name = none) :
    fcpStep env root_dir st class_name = st := by
  unfold fcpStep
  split
  · rename_i cached hc
    rw [hl] at hc
    exact Option.noConfusion hc
  · unfold fcpSearch
    split
    · rename_i q hq
      rw [hs] at hq
      exact Option.noConfusion hq
    · rfl

/-! Persistence of lookups through a resolution batch, and the
round-trip between save_cache and load_cache. -/

theorem fold_lookup_some (env : JEnv) (root_dir : String) {k p : String} :
    ∀ (l : List String) (st : FCPState), CacheLive env st.cache →
      lookupCache st.cache k = some p →
      lookupCache ((l.foldl (fcpStep env root_dir) st).cache) k = some p := by
  intro l
  induction l with
  | nil => intro st _ h2; exact h2
  | cons x t ih =>
    intro st h1 h2
    rw [List.foldl_cons]
    apply ih _ (fcpStep_evict_cacheLive env root_dir st x h1).2
    cases hc : lookupCache st.cache x with
    | some cached =>
      have hfe : env.fexists cached = true := h1 _ (lookupCache_mem hc)
      rw [fcpStep_eq_hit hc hfe]
      exact h2
    | none =>
      cases hs : searchClass env root_dir x with
      | some q =>
        rw [fcpStep_eq_found hc hs]
        have hxk : x ≠ k := by
          intro hcontra
          subst hcontra
          rw [h2] at hc
          exact Option.noConfusion hc
        show lookupCache (updateCache st.cache x q) k = some p
        rw [lookup_updateCache_ne _ _ hxk]
        exact h2
      | none =>
        rw [fcpStep_eq_missing hc hs]
        exact h2

theorem fold_lookup_none (env : JEnv) (root_dir : String) {k : String} :
    ∀ (l : List String) (st : FCPState), CacheLive env st.cache →
      lookupCache st.cache k = none →
      searchClass env root_dir k = none →
      lookupCache ((l.foldl (fcpStep env root_dir) st).cache) k = none := by
  intro l
  induction l with
  | nil => intro st _ h2 _; exact h2
  | cons x t ih =>
    intro st h1 h2 h3
    rw [List.foldl_cons]
    apply ih _ (fcpStep_evict_cacheLive env root_dir st x h1).2 ?_ h3
    cases hc : lookupCache st.cache x with
    | some cached =>
      have hfe : env.fexists cached = true := h1 _ (lookupCache_mem hc)
      rw [fcpStep_eq_hit hc hfe]
      exact h2
    | none =>
      cases hs : searchClass env root_dir x with
      | some q =>
        rw [fcpStep_eq_found hc hs]
        have hxk : x ≠ k := by
          intro hcontra
          subst hcontra
          rw [h3] at hs
          exact Option.noConfusion hs
        show lookupCache (updateCache st.cache x q) k = none
        rw [lookup_updateCache_ne _ _ hxk]
        exact h2
      | none =>
        rw [fcpStep_eq_missing hc hs]
        exact h2

theorem lookupCache_perm {c1 c2 : Cache} (h : c1.Perm c2)
    (nd : (c1.map Prod.fst).Nodup) (k : String) :
    lookupCache c1 k = lookupCache c2 k := by
  induction h with
  | nil => rfl
  | cons x h2 ih =>
    obtain ⟨a, b⟩ := x
    rw [lookupCache, lookupCache]
    by_cases hak : a = k
    · rw [if_pos hak, if_pos hak]
    · rw [if_neg hak, if_neg hak]
      exact ih (List.nodup_cons.mp nd).2
  | swap x y l =>
    obtain ⟨a, b⟩ := x
    obtain ⟨c0, d0⟩ := y
    rw [lookupCache, lookupCache, lookupCache, lookupCache]
    by_cases hck : c0 = k
    · by_cases hak : a = k
      · exfalso
        apply (List.nodup_cons.mp nd).1
        have hca : c0 = a := by rw [hck, hak]
        rw [List.map_cons]
        rw [hca]
        exact List.mem_cons_self _ _
      · rw [if_pos hck, if_neg hak, if_pos hck]
    · by_cases hak : a = k
      · rw [if_neg hck, if_pos hak, if_pos hak]
      · rw [if_neg hck, if_neg hak, if_neg hak, if_neg hck]
  | trans h1 h2 ih1 ih2 =>
    rw [ih1 nd, ih2 ((h1.map Prod.fst).nodup_iff.mp nd)]

theorem load_of_entries (env : JEnv) :
    ∀ (L acc : Cache),
      (∀ e ∈ L, splitEqOnce (pyStrip (e.1 ++ "=" ++ e.2)) = e
        ∧ env.fexists e.2 = true) →
      (L.map Prod.fst).Nodup →
      (∀ x ∈ L.map Prod.fst, x ∉ acc.map Prod.fst) →
      (L.map (fun e => e.1 ++ "=" ++ e.2)).foldl (loadLineStep env) acc
        = acc ++ L := by
  intro L
  induction L with
  | nil => intro acc _ _ _; simp
  | cons e t ih =>
    intro acc hcanon hnd hdisj
    rw [List.map_cons, List.foldl_cons]
    have hstep : loadLineStep env acc (e.1 ++ "=" ++ e.2) = acc ++ [e] := by
      unfold loadLineStep
      rw [if_pos (entryLine_contains e.1 e.2)]
      rw [(hcanon e (by simp)).1]
      rw [if_pos ((hcanon e (by simp)).2)]
      exact updateCache_fresh _ (hdisj e.1 (by simp))
    have hfresh : ∀ x ∈ t.map Prod.fst, x ∉ (acc ++ [e]).map Prod.fst := by
      intro x hx
      rw [List.map_append]
      intro hmem
      rcases List.mem_append.mp hmem with hm2 | hm2
      · exact hdisj x (by simp [hx]) hm2
      · have hx1 : x = e.1 := by simpa using hm2
        subst hx1
        exact (List.nodup_cons.mp hnd).1 (by simpa using hx)
    rw [hstep, ih (acc ++ [e]) (fun x hx => hcanon x (by simp [hx]))
      (List.nodup_cons.mp hnd).2 hfresh]
    simp

theorem load_of_save (env : JEnv) {c : Cache} (hl : CacheLive env c)
    (hc : CacheCanon c) (hk : CacheKeys c) :
    load_cache env (some (save_cache c)) = List.insertionSort pairLe c := by
  show (save_cache c).foldl (loadLineStep env) [] = _
  unfold save_cache
  have hperm : (List.insertionSort pairLe c).Perm c :=
    List.perm_insertionSort pairLe c
  have h1 : ∀ e ∈ List.insertionSort pairLe c,
      splitEqOnce (pyStrip (e.1 ++ "=" ++ e.2)) = e
      ∧ env.fexists e.2 = true := by
    intro e he
    have hec : e ∈ c := hperm.mem_iff.mp he
    exact ⟨hc e hec, hl e hec⟩
  have h2 : ((List.insertionSort pairLe c).map Prod.fst).Nodup :=
    ((hperm.map Prod.fst).nodup_iff).mpr hk
  have h3 : ∀ x ∈ (List.insertionSort pairLe c).map Prod.fst,
      x ∉ (([] : Cache).map Prod.fst) := by
    intro x _ hx
    exact absurd hx (by simp)
  have h4 := load_of_entries env (List.insertionSort pairLe c) [] h1 h2 h3
  simpa using h4

theorem searchClass_shape {env : JEnv} {root_dir class_name p : String}
    (h : searchClass env root_dir class_name = some p) :
    ∃ d, p = d ++ "/" ++ classRelPath class_name := by
  unfold searchClass at h
  cases hf : (searchDirs env root_dir).find?
      (fun base_dir =>
        env.fexists (base_dir ++ "/" ++ classRelPath class_name)) with
  | none =>
    rw [hf] at h
    exact absurd h (by simp)
  | some d =>
    rw [hf] at h
    exact ⟨d, (Option.some.inj h).symm⟩

theorem fcpStep_inv (env : JEnv) (root_dir : String) (st : FCPState)
    (x : String) (hsafe : cacheSafeName x = true)
    (h1 : CacheLive env st.cache) (h2 : CacheCanon st.cache)
    (h3 : CacheKeys st.cache) :
    CacheLive env (fcpStep env root_dir st x).cache
    ∧ CacheCanon (fcpStep env root_dir st x).cache
    ∧ CacheKeys (fcpStep env root_dir st x).cache := by
  cases hc : lookupCache st.cache x with
  | some cached =>
    have hfe : env.fexists cached = true := h1 _ (lookupCache_mem hc)
    rw [fcpStep_eq_hit hc hfe]
    exact ⟨h1, h2, h3⟩
  | none =>
    cases hs : searchClass env root_dir x with
    | some q =>
      rw [fcpStep_eq_found hc hs]
      obtain ⟨d, rfl⟩ := searchClass_shape hs
      refine ⟨?_, ?_, ?_⟩
      · exact cacheLive_updateCache h1 (searchClass_exists hs)
      · exact cacheCanon_updateCache h2 (canonical_of_safe hsafe d)
      · exact cacheKeys_updateCache h3
    | none =>
      rw [fcpStep_eq_missing hc hs]
      exact ⟨h1, h2, h3⟩

theorem fcp_fold_inv (env : JEnv) (root_dir : String) :
    ∀ (l : List String) (st : FCPState),
      (∀ n ∈ l, cacheSafeName n = true) →
      CacheLive env st.cache → CacheCanon st.cache → CacheKeys st.cache →
      CacheLive env ((l.foldl (fcpStep env root_dir) st).cache)
      ∧ CacheCanon ((l.foldl (fcpStep env root_dir) st).cache)
      ∧ CacheKeys ((l.foldl (fcpStep env root_dir) st).cache) := by
  intro l
  induction l with
  | nil => intro st _ h1 h2 h3; exact ⟨h1, h2, h3⟩
  | cons x t ih =>
    intro st hsafe h1 h2 h3
    rw [List.foldl_cons]
    obtain ⟨h4, h5, h6⟩ := fcpStep_inv env root_dir st x
      (hsafe x (by simp)) h1 h2 h3
    exact ih _ (fun n hn => hsafe n (by simp [hn])) h4 h5 h6

/-- Simulation of a second batch against the final cache of a first
batch: when the second batch starts from a cache that answers lookups
exactly as the final in-memory cache of the first, it returns the same
appended paths, mutates nothing and never marks the cache dirty. -/
theorem fcp_sim (env : JEnv) (root_dir : String) :
    ∀ (names : List String) (st1 st2 : FCPState),
      CacheLive env st1.cache →
      (∀ k, lookupCache st2.cache k
        = lookupCache ((names.foldl (fcpStep env root_dir) st1).cache) k) →
      ∃ d : List String,
        (names.foldl (fcpStep env root_dir) st1).paths = st1.paths ++ d
        ∧ (names.foldl (fcpStep env root_dir) st2).paths = st2.paths ++ d
        ∧ (names.foldl (fcpStep env root_dir) st2).cache = st2.cache
        ∧ (names.foldl (fcpStep env root_dir) st2).updated = st2.updated
        ∧ (names.foldl (fcpStep env root_dir) st2).evict = st2.evict := by
  intro names
  induction names with
  | nil =>
    intro st1 st2 _ _
    exact ⟨[], by simp, by simp, rfl, rfl, rfl⟩
  | cons n rest ih =>
    intro st1 st2 hlive hlook
    simp only [List.foldl_cons] at hlook ⊢
    have hlive2 : CacheLive env (fcpStep env root_dir st1 n).cache :=
      (fcpStep_evict_cacheLive env root_dir st1 n hlive).2
    cases hc : lookupCache st1.cache n with
    | some p =>
      have hfe : env.fexists p = true := hlive _ (lookupCache_mem hc)
      have hst1 : fcpStep env root_dir st1 n
          = { st1 with paths := st1.paths ++ [p] } := fcpStep_eq_hit hc hfe
      have hl2 : lookupCache st2.cache n = some p := by
        rw [hlook n]
        apply fold_lookup_some env root_dir rest _ hlive2
        rw [hst1]
        exact hc
      have hst2 : fcpStep env root_dir st2 n
          = { st2 with paths := st2.paths ++ [p] } := fcpStep_eq_hit hl2 hfe
      obtain ⟨d, h1, h2, h3, h4, h5⟩ := ih (fcpStep env root_dir st1 n)
        (fcpStep env root_dir st2 n) hlive2
        (by intro k; rw [hst2]; exact hlook k)
      refine ⟨p :: d, ?_, ?_, ?_, ?_, ?_⟩
      · rw [h1, hst1]
        simp
      · rw [h2, hst2]
        simp
      · rw [h3, hst2]
      · rw [h4, hst2]
      · rw [h5, hst2]
    | none =>
      cases hs : searchClass env root_dir n with
      | some q =>
        have hfe : env.fexists q = true := searchClass_exists hs
        have hst1 : fcpStep env root_dir st1 n
            = { st1 with paths := st1.paths ++ [q],
                         cache := updateCache st1.cache n q,
                         updated := true } := fcpStep_eq_found hc hs
        have hl2 : lookupCache st2.cache n = some q := by
          rw [hlook n]
          apply fold_lookup_some env root_dir rest _ hlive2
          rw [hst1]
          show lookupCache (updateCache st1.cache n q) n = some q
          exact lookup_updateCache_self _ _ _
        have hst2 : fcpStep env root_dir st2 n
            = { st2 with paths := st2.paths ++ [q] } := fcpStep_eq_hit hl2 hfe
        obtain ⟨d, h1, h2, h3, h4, h5⟩ := ih (fcpStep env root_dir st1 n)
          (fcpStep env root_dir st2 n) hlive2
          (by intro k; rw [hst2]; exact hlook k)
        refine ⟨q :: d, ?_, ?_, ?_, ?_, ?_⟩
        · rw [h1, hst1]
          simp
        · rw [h2, hst2]
          simp
        · rw [h3, hst2]
        · rw [h4, hst2]
        · rw [h5, hst2]
      | none =>
        have hst1 : fcpStep env root_dir st1 n = st1 :=
          fcpStep_eq_missing hc hs
        have hl2 : lookupCache st2.cache n = none := by
          rw [hlook n]
          apply fold_lookup_none env root_dir rest _ hlive2 _ hs
          rw [hst1]
          exact hc
        have hst2 : fcpStep env root_dir st2 n = st2 :=
          fcpStep_eq_missing hl2 hs
        obtain ⟨d, h1, h2, h3, h4, h5⟩ := ih (fcpStep env root_dir st1 n)
          (fcpStep env root_dir st2 n) hlive2
          (by intro k; rw [hst2]; exact hlook k)
        refine ⟨d, ?_, ?_, ?_, ?_, ?_⟩
        · rw [h1, hst1]
        · rw [h2, hst2]
        · rw [h3, hst2]
        · rw [h4, hst2]
        · rw [h5, hst2]

/-- Claim C6: resolution is idempotent. Re-running find_class_paths on
unchanged inputs (same names, same filesystem, cache file as left by the
first run) returns the same paths, leaves the cache file unchanged and
performs no cache write the second time. The names are assumed
cache-file safe (no `=`, no leading whitespace), which every qualified
class name of the data model satisfies. -/
theorem c6_resolution_idempotent (env : JEnv) (class_names : List String)
    (root_dir : String) (cacheFile : Option (List String))
    (hsafe : ∀ n ∈ class_names, cacheSafeName n = true) :
    (find_class_paths env class_names root_dir
        (find_class_paths env class_names root_dir cacheFile).cacheFile).paths
      = (find_class_paths env class_names root_dir cacheFile).paths
    ∧ (find_class_paths env class_names root_dir
        (find_class_paths env class_names root_dir
          cacheFile).cacheFile).cacheFile
      = (find_class_paths env class_names root_dir cacheFile).cacheFile
    ∧ (find_class_paths env class_names root_dir
        (find_class_paths env class_names root_dir cacheFile).cacheFile).wrote
      = false := by
  cases hup : (class_names.foldl (fcpStep env root_dir)
      ⟨[], load_cache env cacheFile, false, 0⟩).updated with
  | false =>
    have hcf : (find_class_paths env class_names root_dir cacheFile).cacheFile
        = cacheFile := by
      show (finishBatch cacheFile _).cacheFile = cacheFile
      simp [finishBatch, hup]
    refine ⟨?_, ?_, ?_⟩
    · rw [hcf]
    · rw [hcf]
      exact hcf
    · rw [hcf]
      exact hup
  | true =>
    have hlive0 : CacheLive env (load_cache env cacheFile) :=
      cacheLive_load env cacheFile
    obtain ⟨hcanon0, hkeys0⟩ := load_inv env cacheFile
    obtain ⟨hliveF, hcanonF, hkeysF⟩ := fcp_fold_inv env root_dir class_names
      ⟨[], load_cache env cacheFile, false, 0⟩ hsafe hlive0 hcanon0 hkeys0
    have hcf1 : (find_class_paths env class_names root_dir cacheFile).cacheFile
        = some (save_cache ((class_names.foldl (fcpStep env root_dir)
          ⟨[], load_cache env cacheFile, false, 0⟩).cache)) := by
      show (finishBatch cacheFile _).cacheFile = _
      simp [finishBatch, hup]
    have hperm : (List.insertionSort pairLe ((class_names.foldl
        (fcpStep env root_dir)
        ⟨[], load_cache env cacheFile, false, 0⟩).cache)).Perm
        ((class_names.foldl (fcpStep env root_dir)
          ⟨[], load_cache env cacheFile, false, 0⟩).cache) :=
      List.perm_insertionSort pairLe _
    have hload2 : load_cache env (some (save_cache ((class_names.foldl
        (fcpStep env root_dir)
        ⟨[], load_cache env cacheFile, false, 0⟩).cache)))
        = List.insertionSort pairLe ((class_names.foldl
          (fcpStep env root_dir)
          ⟨[], load_cache env cacheFile, false, 0⟩).cache) :=
      load_of_save env hliveF hcanonF hkeysF
    have hlook : ∀ k, lookupCache (load_cache env (some (save_cache
        ((class_names.foldl (fcpStep env root_dir)
          ⟨[], load_cache env cacheFile, false, 0⟩).cache)))) k
        = lookupCache ((class_names.foldl (fcpStep env root_dir)
          ⟨[], load_cache env cacheFile, false, 0⟩).cache) k := by
      intro k
      rw [hload2]
      exact lookupCache_perm hperm
        (((hperm.map Prod.fst).nodup_iff).mpr hkeysF) k
    obtain ⟨d, h1, h2, h3, h4, h5⟩ := fcp_sim env root_dir class_names
      ⟨[], load_cache env cacheFile, false, 0⟩
      ⟨[], load_cache env (some (save_cache ((class_names.foldl
        (fcpStep env root_dir)
        ⟨[], load_cache env cacheFile, false, 0⟩).cache))), false, 0⟩
      hlive0 (fun k => hlook k)
    refine ⟨?_, ?_, ?_⟩
    · rw [hcf1]
      show (class_names.foldl (fcpStep env root_dir)
          ⟨[], load_cache env (some (save_cache ((class_names.foldl
            (fcpStep env root_dir)
            ⟨[], load_cache env cacheFile, false, 0⟩).cache))),
            false, 0⟩).paths
        = (class_names.foldl (fcpStep env root_dir)
            ⟨[], load_cache env cacheFile, false, 0⟩).paths
      rw [h1, h2]
    · rw [hcf1]
      show (finishBatch (some (save_cache ((class_names.foldl
          (fcpStep env root_dir)
          ⟨[], load_cache env cacheFile, false, 0⟩).cache))) _).cacheFile
        = some (save_cache ((class_names.foldl (fcpStep env root_dir)
            ⟨[], load_cache env cacheFile, false, 0⟩).cache))
      simp [finishBatch, h4]
    · rw [hcf1]
      show (class_names.foldl (fcpStep env root_dir)
          ⟨[], load_cache env (some (save_cache ((class_names.foldl
            (fcpStep env root_dir)
            ⟨[], load_cache env cacheFile, false, 0⟩).cache))),
            false, 0⟩).updated = false
      rw [h4]

/-- Witness for the C6 theorem in the stale-cache scenario: the second
run returns the same path, leaves the cache file as written by the first
run and does not write. -/
theorem c6_resolution_idempotent_witness :
    (find_class_paths envStale ["com.ex.B"] "root"
        (find_class_paths envStale ["com.ex.B"] "root"
          (some ["com.ex.B=root/old/B.java"])).cacheFile).paths
      = (find_class_paths envStale ["com.ex.B"] "root"
          (some ["com.ex.B=root/old/B.java"])).paths
    ∧ (find_class_paths envStale ["com.ex.B"] "root"
        (find_class_paths envStale ["com.ex.B"] "root"
          (some ["com.ex.B=root/old/B.java"])).cacheFile).cacheFile
      = (find_class_paths envStale ["com.ex.B"] "root"
          (some ["com.ex.B=root/old/B.java"])).cacheFile
    ∧ (find_class_paths envStale ["com.ex.B"] "root"
        (find_class_paths envStale ["com.ex.B"] "root"
          (some ["com.ex.B=root/old/B.java"])).cacheFile).wrote = false :=
  c6_resolution_idempotent envStale ["com.ex.B"] "root"
    (some ["com.ex.B=root/old/B.java"]) (by decide)

end Tollm
